/-
Verification of the RetinaNet target encoder (`encoder.py`).

The development shallowly embeds the source over the real numbers: tensors of
shape [N,4] become `List B4`, the IoU matrix becomes `List (List ℝ)`, machine
floats become exact reals, and operations that make the Python program raise
(`ious.max(1)` on an empty ground-truth axis, `labels[max_ids]` out of range,
`input_size // fm_size` with a zero feature-map size) return `none`.

The geometry helpers `meshgrid`, `change_box_order` and `box_iou` are imported
by `encoder.py` from `utils.py`, which is not part of the source tree here;
they are modelled from the specification (section 4.1), as marked on each
definition.
-/
import Mathlib

/-- Axis-aligned box given by four scalar entries, mirroring one row of an
[N,4] tensor; whether the entries mean corners (`xyxy`) or center and size
(`xywh`) follows the call site, exactly as in the source. -/
structure B4 where
  c0 : ℝ
  c1 : ℝ
  c2 : ℝ
  c3 : ℝ

/-- Modelled from the spec: `meshgrid(size, swap_dims)` of `utils.py` (file not
under `src/`): every integer pair of a `size`×`size` grid as a flat row-major
sequence; with `swap_dims = true` the first coordinate (the column) varies
fastest, giving (x,y) = (col,row) pairs. -/
def meshgrid (size : ℕ) (swap_dims : Bool) : List (ℝ × ℝ) :=
  (List.range size).flatMap fun r =>
    (List.range size).map fun (c : ℕ) =>
      if swap_dims then (((c : ℕ) : ℝ), ((r : ℕ) : ℝ)) else (((r : ℕ) : ℝ), ((c : ℕ) : ℝ))

/-- Modelled from the spec: the `'xyxy2xywh'` direction of `change_box_order`
of `utils.py`: (xmin,ymin,xmax,ymax) to (center-x, center-y, width, height). -/
noncomputable def xyxy2xywh (b : B4) : B4 :=
  ⟨(b.c0 + b.c2) / 2, (b.c1 + b.c3) / 2, b.c2 - b.c0, b.c3 - b.c1⟩

/-- Modelled from the spec: the `'xywh2xyxy'` direction of `change_box_order`. -/
noncomputable def xywh2xyxy (b : B4) : B4 :=
  ⟨b.c0 - b.c2 / 2, b.c1 - b.c3 / 2, b.c0 + b.c2 / 2, b.c1 + b.c3 / 2⟩

/-- Modelled from the spec: IoU of one pair of boxes in corner form, as
computed inside `box_iou` of `utils.py`: the intersection is the product of
clamped-to-nonnegative overlap extents, the union is areaA + areaB minus the
intersection, and the quotient is 0 when the union is 0 (Lean's `x / 0 = 0`
gives exactly that convention). -/
noncomputable def iouPair (p q : B4) : ℝ :=
  let iw := max 0 (min p.c2 q.c2 - max p.c0 q.c0)
  let ih := max 0 (min p.c3 q.c3 - max p.c1 q.c1)
  let inter := iw * ih
  let areaP := (p.c2 - p.c0) * (p.c3 - p.c1)
  let areaQ := (q.c2 - q.c0) * (q.c3 - q.c1)
  inter / (areaP + areaQ - inter)

/-- Modelled from the spec: one entry of `box_iou(A, B, order='xywh')`: both
boxes are normalized from `'xywh'` to `'xyxy'` before the IoU proper. -/
noncomputable def box_iou_xywh (a g : B4) : ℝ := iouPair (xywh2xyxy a) (xywh2xyxy g)

/-- Modelled from the spec: `box_iou(A, B, order='xywh')` of `utils.py`: the
full pairwise IoU matrix of shape [|A|, |B|], row index ranging over `A`. -/
noncomputable def box_iou (A B : List B4) : List (List ℝ) :=
  A.map fun a => B.map fun b => box_iou_xywh a b

/-- Model of torch `Tensor.max` over one row: the maximum value together with
the index of its first occurrence (ties resolve to the lowest index); `none` on
an empty row, where torch raises. -/
noncomputable def rowMax : List ℝ → Option (ℝ × ℕ)
  | [] => none
  | x :: xs =>
    match rowMax xs with
    | none => some (x, 0)
    | some (m, j) => if m > x then some (m, j + 1) else some (x, 0)

/-- Model of `ious.max(1)` (line 75): per-row maximum value and argmax index;
fails as torch does when a reduced row is empty, i.e. with zero ground-truth
boxes. -/
noncomputable def maxDim1 : List (List ℝ) → Option (List (ℝ × ℕ))
  | [] => some []
  | r :: rs =>
    match rowMax r, maxDim1 rs with
    | some p, some ps => some (p :: ps)
    | _, _ => none

/-- Feature-map size of pyramid level `i` (line 44):
`int(input_size/pow(2.,i+3)+0.5)`; `int` truncation of a nonnegative float is
the floor. -/
def fmSize (input_size i : ℕ) : ℕ :=
  (Int.floor ((input_size : ℚ) / 2 ^ (i + 3) + 1 / 2)).toNat

/-- Instance state of `DataEncoder` (lines 9-13): the three configuration lists
and the anchor width/height table stored on the object. -/
structure DataEncoder where
  anchor_areas : List ℝ
  aspect_ratios : List ℝ
  scale_ratios : List ℝ
  anchor_wh : List (List (ℝ × ℝ))

/-- Source `_get_anchor_wh` (lines 15-31): for each base area `s` and each
aspect ratio `ar`, base height `h = sqrt(s/ar)` and width `w = ar*h`; for each
scale ratio `sr` the pair `(w*sr, h*sr)` is appended. The flat area-outer /
aspect-middle / scale-inner list is reshaped by `view(num_fms, -1, 2)` into one
row per area, which the outer `map` over areas renders directly. -/
noncomputable def DataEncoder._get_anchor_wh
    (anchor_areas aspect_ratios scale_ratios : List ℝ) : List (List (ℝ × ℝ)) :=
  anchor_areas.map fun s =>
    aspect_ratios.flatMap fun ar =>
      let h := Real.sqrt (s / ar)
      let w := ar * h
      scale_ratios.map fun sr => (w * sr, h * sr)

/-- Default `anchor_areas` of `__init__` (line 10). -/
noncomputable def defaultAnchorAreas : List ℝ := [32*32, 64*64, 128*128, 256*256, 512*512]

/-- Default `aspect_ratios` of `__init__` (line 11). -/
noncomputable def defaultAspectRatios : List ℝ := [1/2, 1/1, 2/1]

/-- Default `scale_ratios` of `__init__` (line 12). -/
noncomputable def defaultScaleRatios : List ℝ := [1, (2:ℝ) ^ ((1:ℝ)/3), (2:ℝ) ^ ((2:ℝ)/3)]

/-- Source `__init__` (lines 9-13): the fixed configuration together with the
anchor width/height table, computed once at construction. -/
noncomputable def DataEncoder.init : DataEncoder :=
  { anchor_areas := defaultAnchorAreas
    aspect_ratios := defaultAspectRatios
    scale_ratios := defaultScaleRatios
    anchor_wh := DataEncoder._get_anchor_wh defaultAnchorAreas defaultAspectRatios defaultScaleRatios }

/-- Guard for `_get_anchor_boxes`: Python raises `ZeroDivisionError` in
`input_size//fm_size` (line 50) when some feature-map size is 0; the boolean
records that every level of the pyramid has a nonzero feature-map size. -/
def fmOk (e : DataEncoder) (input_size : ℕ) : Bool :=
  (List.range e.anchor_areas.length).all fun i => decide (fmSize input_size i ≠ 0)

/-- One pyramid level of `_get_anchor_boxes` (lines 48-55): cell centers
`(meshgrid(fm_size, swap_dims=True) + 0.5) * grid_size`, each broadcast against
the level's (w,h) table entries, flattened cell-major with the anchor slot as
the innermost index. -/
def levelBoxes (wh : List (ℝ × ℝ)) (fm_size grid_size : ℕ) : List B4 :=
  (meshgrid fm_size true).flatMap fun xy =>
    wh.map fun p => ⟨(xy.1 + 0.5) * grid_size, (xy.2 + 0.5) * grid_size, p.1, p.2⟩

/-- Body of `_get_anchor_boxes` when no level fails: the per-level box lists
concatenated in level order (line 56). -/
def anchorsList (e : DataEncoder) (input_size : ℕ) : List B4 :=
  (List.range e.anchor_areas.length).flatMap fun i =>
    levelBoxes (e.anchor_wh.getD i []) (fmSize input_size i) (input_size / fmSize input_size i)

/-- Source `_get_anchor_boxes` (lines 33-56): `grid_size = input_size//fm_size`
is Python floor division, here division on ℕ; `none` models the
`ZeroDivisionError` raised when some feature-map size is 0. -/
def DataEncoder._get_anchor_boxes (e : DataEncoder) (input_size : ℕ) : Option (List B4) :=
  if fmOk e input_size then some (anchorsList e input_size) else none

/-- Lines 71-72 of `encode`: ground-truth boxes converted `'xyxy2xywh'` and
then scaled by `input_size` in every component. -/
noncomputable def scaledBoxes (boxes : List B4) (input_size : ℕ) : List B4 :=
  (boxes.map xyxy2xywh).map fun b =>
    ⟨b.c0 * input_size, b.c1 * input_size, b.c2 * input_size, b.c3 * input_size⟩

/-- Lines 78-79 of `encode`: the regression target of one anchor `a` matched to
ground-truth box `g`, both in `'xywh'` form:
`loc_xy = (g_xy - a_xy) / a_wh` and `loc_wh = log(g_wh / a_wh)`. -/
noncomputable def locTarget (g a : B4) : B4 :=
  ⟨(g.c0 - a.c0) / a.c2, (g.c1 - a.c1) / a.c3,
   Real.log (g.c2 / a.c2), Real.log (g.c3 / a.c3)⟩

/-- Source `encode` (lines 58-86). The steps mirror the source line by line:
anchor generation, box conversion and scaling, the IoU matrix, the row maxima
`max_ious, max_ids = ious.max(1)`, the gather `boxes[max_ids]`, the regression
targets, the base class targets `1 + labels[max_ids]`, then the two-step
overwrite `cls_targets[max_ious<0.4] = 0` followed by
`cls_targets[(max_ious>0.4)&(max_ious<0.5)] = -1`. `none` models the torch
errors: empty reduction axis and out-of-range label index. -/
noncomputable def DataEncoder.encode (e : DataEncoder) (boxes : List B4)
    (labels : List ℤ) (input_size : ℕ) : Option (List B4 × List ℤ) :=
  match e._get_anchor_boxes input_size with
  | none => none
  | some anchor_boxes =>
    let gt := scaledBoxes boxes input_size
    match maxDim1 (box_iou anchor_boxes gt) with
    | none => none
    | some mm =>
      let max_ious := mm.map Prod.fst
      let max_ids := mm.map Prod.snd
      if max_ids.all (fun j => decide (j < labels.length)) then
        let matched := max_ids.map fun j => gt.getD j ⟨0, 0, 0, 0⟩
        let loc_targets := List.zipWith locTarget matched anchor_boxes
        let cls0 := max_ids.map fun j => 1 + labels.getD j 0
        let cls1 := List.zipWith (fun c m => if m < 0.4 then (0 : ℤ) else c) cls0 max_ious
        let cls2 := List.zipWith (fun c m => if 0.4 < m ∧ m < 0.5 then (-1 : ℤ) else c) cls1 max_ious
        some (loc_targets, cls2)
      else none

/-- First component of a successful `encode` (the `loc_targets`), with `[]` for
a failing call; a convenience projection for stating theorems. -/
noncomputable def encLoc (e : DataEncoder) (boxes : List B4) (labels : List ℤ)
    (input_size : ℕ) : List B4 :=
  ((e.encode boxes labels input_size).getD ([], [])).1

/-- Second component of a successful `encode` (the `cls_targets`), with `[]`
for a failing call. -/
noncomputable def encCls (e : DataEncoder) (boxes : List B4) (labels : List ℤ)
    (input_size : ℕ) : List ℤ :=
  ((e.encode boxes labels input_size).getD ([], [])).2

/-- State-passing view of the `encode` method: the Python method reads but
never assigns instance attributes, so the post-call object state is the
unchanged receiver, returned here alongside the result. -/
noncomputable def DataEncoder.encodeSt (e : DataEncoder) (boxes : List B4)
    (labels : List ℤ) (input_size : ℕ) :
    DataEncoder × Option (List B4 × List ℤ) :=
  (e, e.encode boxes labels input_size)

/-- State-passing view of the `_get_anchor_boxes` method; as with `encode`, the
source assigns no instance attribute. -/
def DataEncoder.getAnchorBoxesSt (e : DataEncoder) (input_size : ℕ) :
    DataEncoder × Option (List B4) :=
  (e, e._get_anchor_boxes input_size)

/-- Total anchor count for `input_size` under the default configuration:
9 anchors per cell on each of the five fm×fm grids. -/
def anchorCount (input_size : ℕ) : ℕ :=
  ((List.range 5).map fun i => fmSize input_size i ^ 2 * 9).sum

/-- Offset of level `i` inside the flat anchor list: the total length of the
preceding levels' blocks. -/
def levelOffset (e : DataEncoder) (input_size i : ℕ) : ℕ :=
  ((List.range i).map fun j => fmSize input_size j ^ 2 * (e.anchor_wh.getD j []).length).sum

/-! Generic list lemmas used to read single entries out of the flat anchor and
target lists without evaluating whole lists. -/

lemma getElem?_zipWith_some {α β γ : Type _} (f : α → β → γ) :
    ∀ (as : List α) (bs : List β) (i : ℕ) (a : α) (b : β),
      as[i]? = some a → bs[i]? = some b → (List.zipWith f as bs)[i]? = some (f a b)
  | [], _, i, _, _, ha, _ => by simp at ha
  | _ :: _, [], i, _, _, _, hb => by simp at hb
  | a' :: as, b' :: bs, 0, a, b, ha, hb => by
    simp only [List.getElem?_cons_zero, Option.some.injEq] at ha hb
    simp [List.zipWith, ha, hb]
  | a' :: as, b' :: bs, i + 1, a, b, ha, hb => by
    simp only [List.getElem?_cons_succ] at ha hb
    simpa [List.zipWith] using getElem?_zipWith_some f as bs i a b ha hb

lemma getElem?_flatMap_sum {α β : Type _} (g : α → List β) :
    ∀ (l : List α) (i t : ℕ) (a : α), l[i]? = some a → t < (g a).length →
      (l.flatMap g)[(((l.take i).map fun x => (g x).length).sum + t)]? = (g a)[t]?
  | [], i, t, a, ha, _ => by simp at ha
  | x :: xs, 0, t, a, ha, ht => by
    simp only [List.getElem?_cons_zero, Option.some.injEq] at ha
    subst ha
    simp only [List.take_zero, List.map_nil, List.sum_nil, Nat.zero_add,
      List.flatMap_cons]
    exact List.getElem?_append_left ht
  | x :: xs, i + 1, t, a, ha, ht => by
    simp only [List.getElem?_cons_succ] at ha
    have ih := getElem?_flatMap_sum g xs i t a ha ht
    simp only [List.take_succ_cons, List.map_cons, List.sum_cons, List.flatMap_cons]
    rw [Nat.add_assoc, List.getElem?_append_right (by omega)]
    simpa using ih

lemma length_flatMap_uniform {α β : Type _} (g : α → List β) (k : ℕ) :
    ∀ (l : List α), (∀ a ∈ l, (g a).length = k) → (l.flatMap g).length = l.length * k
  | [], _ => by simp
  | x :: xs, h => by
    have ih := length_flatMap_uniform g k xs (fun a ha => h a (List.mem_cons_of_mem _ ha))
    simp only [List.flatMap_cons, List.length_append, ih, List.length_cons,
      h x (List.mem_cons_self x xs)]
    ring

lemma getElem?_flatMap_uniform {α β : Type _} (g : α → List β) (k : ℕ)
    (l : List α) (i t : ℕ) (a : α) (hu : ∀ x ∈ l, (g x).length = k)
    (ha : l[i]? = some a) (ht : t < k) :
    (l.flatMap g)[i * k + t]? = (g a)[t]? := by
  have hlen : (((l.take i).map fun x => (g x).length).sum) = i * k := by
    have hik : i < l.length := by
      by_contra hcon
      rw [List.getElem?_eq_none (by omega)] at ha
      exact Option.noConfusion ha
    have : ∀ x ∈ l.take i, (g x).length = k := fun x hx =>
      hu x (List.mem_of_mem_take hx)
    calc ((l.take i).map fun x => (g x).length).sum
        = ((l.take i).map fun _ => k).sum := by
          congr 1; exact List.map_congr_left this
      _ = (l.take i).length * k := by
          induction l.take i with
          | nil => simp
          | cons y ys ih => simp [ih, Nat.succ_mul, Nat.add_comm]
      _ = i * k := by rw [List.length_take]; congr 1; omega
  have hta : t < (g a).length := by
    rw [hu a (by
      have := List.getElem?_eq_some.mp ha
      obtain ⟨h1, h2⟩ := this
      exact h2 ▸ List.getElem_mem h1)]
    exact ht
  have := getElem?_flatMap_sum g l i t a ha hta
  rwa [hlen] at this

lemma rowMax_eq_none_iff (l : List ℝ) : rowMax l = none ↔ l = [] := by
  cases l with
  | nil => simp [rowMax]
  | cons x xs =>
    simp only [rowMax]
    constructor
    · intro h
      cases hx : rowMax xs with
      | none => simp [hx] at h
      | some p =>
        obtain ⟨m, j⟩ := p
        rw [hx] at h
        by_cases hmx : m > x <;> simp [hmx] at h
    · intro h; exact List.noConfusion h

lemma rowMax_spec :
    ∀ (l : List ℝ) (m : ℝ) (j : ℕ), rowMax l = some (m, j) →
      l[j]? = some m ∧ (∀ (k : ℕ) (v : ℝ), l[k]? = some v → v ≤ m) ∧
        (∀ k : ℕ, k < j → ∀ v : ℝ, l[k]? = some v → v < m)
  | [], m, j, h => by simp [rowMax] at h
  | x :: xs, m, j, h => by
    simp only [rowMax] at h
    cases hx : rowMax xs with
    | none =>
      rw [hx] at h
      have hxs : xs = [] := (rowMax_eq_none_iff xs).mp hx
      simp only [Option.some.injEq, Prod.mk.injEq] at h
      obtain ⟨hm, hj⟩ := h
      subst hm; subst hj; subst hxs
      refine ⟨by simp, ?_, ?_⟩
      · intro k v hkv
        cases k with
        | zero => simp at hkv; simp [hkv]
        | succ k => simp at hkv
      · intro k hk; exact absurd hk (by omega)
    | some p =>
      obtain ⟨m', j'⟩ := p
      rw [hx] at h
      obtain ⟨h1, h2, h3⟩ := rowMax_spec xs m' j' hx
      by_cases hmx : m' > x
      · simp only [if_pos hmx, Option.some.injEq, Prod.mk.injEq] at h
        obtain ⟨hm, hj⟩ := h
        subst hm; subst hj
        refine ⟨by simpa using h1, ?_, ?_⟩
        · intro k v hkv
          cases k with
          | zero => simp at hkv; subst hkv; exact le_of_lt hmx
          | succ k => exact h2 k v (by simpa using hkv)
        · intro k hk v hkv
          cases k with
          | zero => simp at hkv; subst hkv; exact hmx
          | succ k => exact h3 k (by omega) v (by simpa using hkv)
      · simp only [if_neg hmx, Option.some.injEq, Prod.mk.injEq] at h
        obtain ⟨hm, hj⟩ := h
        subst hm; subst hj
        refine ⟨by simp, ?_, ?_⟩
        · intro k v hkv
          cases k with
          | zero => simp at hkv; simp [hkv]
          | succ k =>
            have := h2 k v (by simpa using hkv)
            exact le_trans this (not_lt.mp hmx)
        · intro k hk; exact absurd hk (by omega)

lemma rowMax_singleton (x : ℝ) : rowMax [x] = some (x, 0) := by
  simp [rowMax]

lemma rowMax_isSome (x : ℝ) (xs : List ℝ) : (rowMax (x :: xs)).isSome = true := by
  simp only [rowMax]
  cases hx : rowMax xs with
  | none => simp
  | some p => obtain ⟨m, j⟩ := p; by_cases hmx : m > x <;> simp [hmx]

lemma maxDim1_isSome (rows : List (List ℝ)) (h : ∀ r ∈ rows, r ≠ []) :
    (maxDim1 rows).isSome = true := by
  induction rows with
  | nil => simp [maxDim1]
  | cons r rs ih =>
    have hr : r ≠ [] := h r (List.mem_cons_self r rs)
    obtain ⟨x, xs, hx⟩ : ∃ x xs, r = x :: xs := by
      cases r with
      | nil => exact absurd rfl hr
      | cons x xs => exact ⟨x, xs, rfl⟩
    have ihs := ih (fun r' hr' => h r' (List.mem_cons_of_mem _ hr'))
    subst hx
    obtain ⟨p, hp⟩ := Option.isSome_iff_exists.mp (rowMax_isSome x xs)
    obtain ⟨ps, hps⟩ := Option.isSome_iff_exists.mp ihs
    simp [maxDim1, hp, hps]

lemma maxDim1_getElem? :
    ∀ (rows : List (List ℝ)) (ms : List (ℝ × ℕ)), maxDim1 rows = some ms →
      ∀ i : ℕ, ms[i]? = rows[i]?.bind rowMax
  | [], ms, h, i => by
    simp only [maxDim1, Option.some.injEq] at h; subst h; simp
  | r :: rs, ms, h, i => by
    simp only [maxDim1] at h
    cases hr : rowMax r with
    | none => rw [hr] at h; exact Option.noConfusion h
    | some p =>
      cases hrs : maxDim1 rs with
      | none => rw [hr, hrs] at h; exact Option.noConfusion h
      | some ps =>
        rw [hr, hrs] at h
        simp only [Option.some.injEq] at h
        subst h
        cases i with
        | zero => simp [hr]
        | succ i => simpa using maxDim1_getElem? rs ps hrs i

lemma maxDim1_length :
    ∀ (rows : List (List ℝ)) (ms : List (ℝ × ℕ)), maxDim1 rows = some ms →
      ms.length = rows.length
  | [], ms, h => by simp only [maxDim1, Option.some.injEq] at h; subst h; rfl
  | r :: rs, ms, h => by
    simp only [maxDim1] at h
    cases hr : rowMax r with
    | none => rw [hr] at h; exact Option.noConfusion h
    | some p =>
      cases hrs : maxDim1 rs with
      | none => rw [hr, hrs] at h; exact Option.noConfusion h
      | some ps =>
        rw [hr, hrs] at h
        simp only [Option.some.injEq] at h
        subst h
        simp [maxDim1_length rs ps hrs]

lemma maxDim1_mem :
    ∀ (rows : List (List ℝ)) (ms : List (ℝ × ℕ)), maxDim1 rows = some ms →
      ∀ p ∈ ms, ∃ r ∈ rows, rowMax r = some p
  | [], ms, h, p, hp => by
    simp only [maxDim1, Option.some.injEq] at h; subst h; simp at hp
  | r :: rs, ms, h, p, hp => by
    simp only [maxDim1] at h
    cases hr : rowMax r with
    | none => rw [hr] at h; exact Option.noConfusion h
    | some q =>
      cases hrs : maxDim1 rs with
      | none => rw [hr, hrs] at h; exact Option.noConfusion h
      | some ps =>
        rw [hr, hrs] at h
        simp only [Option.some.injEq] at h
        subst h
        rcases List.mem_cons.mp hp with hq | hps
        · exact ⟨r, List.mem_cons_self r rs, hq ▸ hr⟩
        · obtain ⟨r', hr', hrm⟩ := maxDim1_mem rs ps hrs p hps
          exact ⟨r', List.mem_cons_of_mem _ hr', hrm⟩

/-! Structural lemmas about the anchor generator and the encoder. -/

lemma length_meshgrid (n : ℕ) (b : Bool) : (meshgrid n b).length = n * n := by
  rw [meshgrid]
  rw [length_flatMap_uniform _ n _ (fun r _ => by simp)]
  rw [List.length_range]

lemma getElem?_meshgrid (n r c : ℕ) (hr : r < n) (hc : c < n) :
    (meshgrid n true)[r * n + c]? = some ((c : ℝ), (r : ℝ)) := by
  rw [meshgrid]
  rw [getElem?_flatMap_uniform _ n _ r c r (fun x _ => by simp)
    (List.getElem?_range hr) hc]
  rw [List.getElem?_map, List.getElem?_range hc]
  simp

lemma length_levelBoxes (wh : List (ℝ × ℝ)) (fm g : ℕ) :
    (levelBoxes wh fm g).length = fm * fm * wh.length := by
  rw [levelBoxes]
  rw [length_flatMap_uniform _ wh.length _ (fun xy _ => by simp), length_meshgrid]

lemma getElem?_levelBoxes (wh : List (ℝ × ℝ)) (fm g r c s : ℕ) (p : ℝ × ℝ)
    (hr : r < fm) (hc : c < fm) (hp : wh[s]? = some p) :
    (levelBoxes wh fm g)[(r * fm + c) * wh.length + s]? =
      some ⟨((c : ℝ) + 0.5) * g, ((r : ℝ) + 0.5) * g, p.1, p.2⟩ := by
  have hs : s < wh.length := by
    obtain ⟨h1, _⟩ := List.getElem?_eq_some.mp hp
    exact h1
  rw [levelBoxes]
  rw [getElem?_flatMap_uniform _ wh.length _ (r * fm + c) s ((c : ℝ), (r : ℝ))
    (fun xy _ => by simp) (getElem?_meshgrid fm r c hr hc) hs]
  rw [List.getElem?_map, hp]
  rfl

lemma getElem?_anchorsList (e : DataEncoder) (I i r c s : ℕ) (p : ℝ × ℝ)
    (hi : i < e.anchor_areas.length) (hr : r < fmSize I i) (hc : c < fmSize I i)
    (hp : (e.anchor_wh.getD i [])[s]? = some p) :
    (anchorsList e I)[levelOffset e I i +
        ((r * fmSize I i + c) * (e.anchor_wh.getD i []).length + s)]? =
      some ⟨((c : ℝ) + 0.5) * ((I / fmSize I i : ℕ) : ℝ),
            ((r : ℝ) + 0.5) * ((I / fmSize I i : ℕ) : ℝ), p.1, p.2⟩ := by
  have hs : s < (e.anchor_wh.getD i []).length := by
    obtain ⟨h1, _⟩ := List.getElem?_eq_some.mp hp
    exact h1
  have hcell : r * fmSize I i + c < fmSize I i * fmSize I i := by
    have h1 : (r + 1) * fmSize I i ≤ fmSize I i * fmSize I i := by
      have := Nat.mul_le_mul_right (fmSize I i) (show r + 1 ≤ fmSize I i from hr)
      exact this
    have h2 : (r + 1) * fmSize I i = r * fmSize I i + fmSize I i := by ring
    omega
  have ht : (r * fmSize I i + c) * (e.anchor_wh.getD i []).length + s <
      (levelBoxes (e.anchor_wh.getD i []) (fmSize I i) (I / fmSize I i)).length := by
    rw [length_levelBoxes]
    calc (r * fmSize I i + c) * (e.anchor_wh.getD i []).length + s
        < (r * fmSize I i + c) * (e.anchor_wh.getD i []).length +
            (e.anchor_wh.getD i []).length := by omega
      _ = (r * fmSize I i + c + 1) * (e.anchor_wh.getD i []).length := by ring
      _ ≤ fmSize I i * fmSize I i * (e.anchor_wh.getD i []).length := by
          exact Nat.mul_le_mul_right _ (by omega)
  have hsum := getElem?_flatMap_sum
    (fun j => levelBoxes (e.anchor_wh.getD j []) (fmSize I j) (I / fmSize I j))
    (List.range e.anchor_areas.length)
    i ((r * fmSize I i + c) * (e.anchor_wh.getD i []).length + s) i
    (List.getElem?_range hi) ht
  have hoff : (((List.range e.anchor_areas.length).take i).map
      fun j => (levelBoxes (e.anchor_wh.getD j []) (fmSize I j) (I / fmSize I j)).length).sum =
      levelOffset e I i := by
    rw [List.take_range, show min i e.anchor_areas.length = i from by omega, levelOffset]
    congr 1
    apply List.map_congr_left
    intro j _
    rw [length_levelBoxes, pow_two]
  rw [anchorsList]
  rw [hoff] at hsum
  rw [hsum]
  exact getElem?_levelBoxes _ _ _ r c s p hr hc hp

lemma length_anchorsList (e : DataEncoder) (I : ℕ) :
    (anchorsList e I).length =
      ((List.range e.anchor_areas.length).map
        fun i => fmSize I i ^ 2 * (e.anchor_wh.getD i []).length).sum := by
  rw [anchorsList, List.length_flatMap]
  congr 1
  apply List.map_congr_left
  intro j _
  simp only [Function.comp]
  rw [length_levelBoxes, pow_two]

lemma init_anchor_areas_length : DataEncoder.init.anchor_areas.length = 5 := rfl

lemma init_anchor_wh_row_length (i : ℕ) (hi : i < 5) :
    (DataEncoder.init.anchor_wh.getD i []).length = 9 := by
  interval_cases i <;> rfl

lemma length_anchorsList_init (I : ℕ) :
    (anchorsList DataEncoder.init I).length = anchorCount I := by
  rw [length_anchorsList, anchorCount, init_anchor_areas_length]
  have h : ∀ j ∈ List.range 5,
      fmSize I j ^ 2 * (DataEncoder.init.anchor_wh.getD j []).length = fmSize I j ^ 2 * 9 :=
    fun j hj => by rw [init_anchor_wh_row_length j (List.mem_range.mp hj)]
  rw [List.map_congr_left h]

lemma _get_anchor_boxes_eq_some (e : DataEncoder) (I : ℕ) (hfm : fmOk e I = true) :
    e._get_anchor_boxes I = some (anchorsList e I) := by
  rw [DataEncoder._get_anchor_boxes, if_pos hfm]

lemma length_scaledBoxes (bs : List B4) (I : ℕ) : (scaledBoxes bs I).length = bs.length := by
  rw [scaledBoxes]; simp

lemma encode_eq_some (e : DataEncoder) (bs : List B4) (ls : List ℤ) (I : ℕ)
    (mm : List (ℝ × ℕ))
    (hfm : fmOk e I = true)
    (hmm : maxDim1 (box_iou (anchorsList e I) (scaledBoxes bs I)) = some mm)
    (hall : ∀ p ∈ mm, p.2 < ls.length) :
    e.encode bs ls I = some
      (List.zipWith locTarget
        (mm.map fun p => (scaledBoxes bs I).getD p.2 ⟨0, 0, 0, 0⟩) (anchorsList e I),
       List.zipWith (fun c m => if 0.4 < m ∧ m < 0.5 then (-1 : ℤ) else c)
         (List.zipWith (fun c m => if m < 0.4 then (0 : ℤ) else c)
           (mm.map fun p => 1 + ls.getD p.2 0) (mm.map Prod.fst))
         (mm.map Prod.fst)) := by
  have hall' : (mm.map Prod.snd).all (fun j => decide (j < ls.length)) = true := by
    rw [List.all_eq_true]
    intro j hj
    obtain ⟨p, hp, hpe⟩ := List.mem_map.mp hj
    exact hpe ▸ decide_eq_true (hall p hp)
  rw [DataEncoder.encode, _get_anchor_boxes_eq_some e I hfm]
  simp only [hmm, hall', if_true]
  simp [List.map_map, Function.comp_def]

lemma encCls_getElem? (e : DataEncoder) (bs : List B4) (ls : List ℤ) (I : ℕ)
    (mm : List (ℝ × ℕ)) (i j : ℕ) (m : ℝ)
    (hfm : fmOk e I = true)
    (hmm : maxDim1 (box_iou (anchorsList e I) (scaledBoxes bs I)) = some mm)
    (hall : ∀ p ∈ mm, p.2 < ls.length)
    (hmi : mm[i]? = some (m, j)) :
    (encCls e bs ls I)[i]? =
      some (if 0.4 < m ∧ m < 0.5 then -1 else if m < 0.4 then 0 else 1 + ls.getD j 0) := by
  simp only [encCls, encode_eq_some e bs ls I mm hfm hmm hall, Option.getD_some]
  have h1 : (mm.map Prod.fst)[i]? = some m := by
    rw [List.getElem?_map, hmi]; rfl
  have h0 : (mm.map fun p => 1 + ls.getD p.2 0)[i]? = some (1 + ls.getD j 0) := by
    rw [List.getElem?_map, hmi]; rfl
  have h2 := getElem?_zipWith_some (fun c m => if m < 0.4 then (0 : ℤ) else c) _ _ i _ _ h0 h1
  have h3 := getElem?_zipWith_some
    (fun c m => if 0.4 < m ∧ m < 0.5 then (-1 : ℤ) else c) _ _ i _ _ h2 h1
  rw [h3]

lemma encLoc_getElem? (e : DataEncoder) (bs : List B4) (ls : List ℤ) (I : ℕ)
    (mm : List (ℝ × ℕ)) (i j : ℕ) (m : ℝ) (a : B4)
    (hfm : fmOk e I = true)
    (hmm : maxDim1 (box_iou (anchorsList e I) (scaledBoxes bs I)) = some mm)
    (hall : ∀ p ∈ mm, p.2 < ls.length)
    (hmi : mm[i]? = some (m, j))
    (ha : (anchorsList e I)[i]? = some a) :
    (encLoc e bs ls I)[i]? = some (locTarget ((scaledBoxes bs I).getD j ⟨0, 0, 0, 0⟩) a) := by
  simp only [encLoc, encode_eq_some e bs ls I mm hfm hmm hall, Option.getD_some]
  have hg : (mm.map fun p => (scaledBoxes bs I).getD p.2 ⟨0, 0, 0, 0⟩)[i]? =
      some ((scaledBoxes bs I).getD j ⟨0, 0, 0, 0⟩) := by
    rw [List.getElem?_map, hmi]; rfl
  exact getElem?_zipWith_some locTarget _ _ i _ _ hg ha

lemma box_iou_rows (A B : List B4) : ∀ r ∈ box_iou A B, r.length = B.length := by
  intro r hr
  rw [box_iou] at hr
  obtain ⟨a, _, hre⟩ := List.mem_map.mp hr
  rw [← hre]
  simp

lemma length_box_iou (A B : List B4) : (box_iou A B).length = A.length := by
  rw [box_iou]; simp

lemma encode_isSome (e : DataEncoder) (bs : List B4) (ls : List ℤ) (I : ℕ)
    (hfm : fmOk e I = true) (hbs : bs ≠ []) (hlen : bs.length ≤ ls.length) :
    (e.encode bs ls I).isSome = true := by
  have hrows : ∀ r ∈ box_iou (anchorsList e I) (scaledBoxes bs I), r ≠ [] := by
    intro r hr hnil
    have hl := box_iou_rows _ _ r hr
    rw [length_scaledBoxes, hnil] at hl
    exact hbs (List.length_eq_zero.mp hl.symm)
  obtain ⟨mm, hmm⟩ := Option.isSome_iff_exists.mp (maxDim1_isSome _ hrows)
  have hall : ∀ p ∈ mm, p.2 < ls.length := by
    intro p hp
    obtain ⟨m, j⟩ := p
    obtain ⟨r, hr, hrm⟩ := maxDim1_mem _ mm hmm (m, j) hp
    obtain ⟨h1, _, _⟩ := rowMax_spec r m j hrm
    have hjr : j < r.length := (List.getElem?_eq_some.mp h1).1
    have hl := box_iou_rows _ _ r hr
    rw [length_scaledBoxes] at hl
    simp only []
    omega
  rw [encode_eq_some e bs ls I mm hfm hmm hall]
  rfl

lemma option_eq_some_getD {α : Type _} (o : Option α) (d : α) (h : o.isSome = true) :
    o = some (o.getD d) := by
  cases o with
  | none => exact absurd h (by simp)
  | some a => rfl

lemma encode_eq_some_pair (e : DataEncoder) (bs : List B4) (ls : List ℤ) (I : ℕ)
    (h : (e.encode bs ls I).isSome = true) :
    e.encode bs ls I = some (encLoc e bs ls I, encCls e bs ls I) := by
  cases ho : e.encode bs ls I with
  | none => rw [ho] at h; simp at h
  | some p => simp [encLoc, encCls, ho]

lemma encode_inv (e : DataEncoder) (bs : List B4) (ls : List ℤ) (I : ℕ)
    (lt : List B4) (ct : List ℤ) (hE : e.encode bs ls I = some (lt, ct)) :
    fmOk e I = true ∧
      ∃ mm, maxDim1 (box_iou (anchorsList e I) (scaledBoxes bs I)) = some mm ∧
        (∀ p ∈ mm, p.2 < ls.length) ∧ mm.length = (anchorsList e I).length ∧
        lt = List.zipWith locTarget
          (mm.map fun p => (scaledBoxes bs I).getD p.2 ⟨0, 0, 0, 0⟩) (anchorsList e I) ∧
        ct = List.zipWith (fun c m => if 0.4 < m ∧ m < 0.5 then (-1 : ℤ) else c)
          (List.zipWith (fun c m => if m < 0.4 then (0 : ℤ) else c)
            (mm.map fun p => 1 + ls.getD p.2 0) (mm.map Prod.fst))
          (mm.map Prod.fst) := by
  by_cases hfm : fmOk e I = true
  · simp only [DataEncoder.encode, _get_anchor_boxes_eq_some e I hfm] at hE
    cases hmm : maxDim1 (box_iou (anchorsList e I) (scaledBoxes bs I)) with
    | none => simp [hmm] at hE
    | some mm =>
      simp only [hmm] at hE
      cases hallb : (mm.map Prod.snd).all (fun j => decide (j < ls.length)) with
      | false =>
        simp only [hallb, Bool.false_eq_true, if_false] at hE
        exact Option.noConfusion hE
      | true =>
        simp only [hallb, if_true] at hE
        have hinj := Option.some.inj hE
        rw [Prod.mk.injEq] at hinj
        obtain ⟨hlt, hct⟩ := hinj
        refine ⟨hfm, mm, rfl, ?_, ?_, ?_, ?_⟩
        · intro p hp
          have := List.all_eq_true.mp hallb p.2 (List.mem_map.mpr ⟨p, hp, rfl⟩)
          exact of_decide_eq_true this
        · have := maxDim1_length _ mm hmm
          rw [this, length_box_iou]
        · rw [← hlt]; simp [List.map_map, Function.comp_def]
        · rw [← hct]; simp [List.map_map, Function.comp_def]
  · rw [DataEncoder.encode, DataEncoder._get_anchor_boxes, if_neg hfm] at hE
    exact Option.noConfusion hE

lemma encode_some_lengths (e : DataEncoder) (bs : List B4) (ls : List ℤ) (I : ℕ)
    (lt : List B4) (ct : List ℤ) (hE : e.encode bs ls I = some (lt, ct)) :
    lt.length = (anchorsList e I).length ∧ ct.length = (anchorsList e I).length := by
  obtain ⟨hfm, mm, hmm, hall, hml, hlt, hct⟩ := encode_inv e bs ls I lt ct hE
  subst hlt
  subst hct
  constructor
  · simp [List.length_zipWith, List.length_map, hml]
  · simp [List.length_zipWith, List.length_map, hml]

lemma maxDim1_ids_lt (A B : List B4) (mm : List (ℝ × ℕ))
    (hmm : maxDim1 (box_iou A B) = some mm) : ∀ p ∈ mm, p.2 < B.length := by
  intro p hp
  obtain ⟨m, j⟩ := p
  obtain ⟨r, hr, hrm⟩ := maxDim1_mem _ mm hmm (m, j) hp
  obtain ⟨h1, _, _⟩ := rowMax_spec r m j hrm
  have hjr : j < r.length := (List.getElem?_eq_some.mp h1).1
  have hl := box_iou_rows _ _ r hr
  simp only []
  omega

/-! Concrete instance used by counterexamples and witnesses: `input_size = 64`
(the smallest input for which every pyramid level has a nonzero feature map),
the level-0 anchor of cell (row 1, col 1) and slot 3 (aspect ratio 1, scale 1),
which is the box (cx,cy,w,h) = (12,12,32,32), and the ground-truth box
(0, 0, 1/4, 2/5) in normalized xyxy coordinates, whose IoU with that anchor is
exactly 2/5 = 0.4. -/

lemma fmSize64 : fmSize 64 0 = 8 ∧ fmSize 64 1 = 4 ∧ fmSize 64 2 = 2 ∧
    fmSize 64 3 = 1 ∧ fmSize 64 4 = 1 := by
  refine ⟨?_, ?_, ?_, ?_, ?_⟩ <;> norm_num [fmSize, Int.toNat_ofNat] <;> rfl

lemma fmOk_init_64 : fmOk DataEncoder.init 64 = true := by
  have h5 : List.range DataEncoder.init.anchor_areas.length = [0, 1, 2, 3, 4] := by
    rw [init_anchor_areas_length]
    decide
  rw [fmOk, h5]
  norm_num [fmSize]

lemma init_wh_0_3 : (DataEncoder.init.anchor_wh.getD 0 [])[3]? = some ((32 : ℝ), (32 : ℝ)) := by
  have hs : Real.sqrt (32 * 32 / (1 / 1) : ℝ) = 32 := by
    rw [show (32 * 32 / (1 / 1) : ℝ) = 32 ^ 2 by norm_num]
    exact Real.sqrt_sq (by norm_num)
  show ((DataEncoder._get_anchor_wh defaultAnchorAreas defaultAspectRatios
      defaultScaleRatios).getD 0 [])[3]? = _
  rw [DataEncoder._get_anchor_wh, defaultAnchorAreas, defaultAspectRatios, defaultScaleRatios]
  simp only [List.map_cons, List.flatMap_cons, List.map_nil, List.flatMap_nil,
    List.getD_cons_zero, List.append_nil, List.cons_append, List.nil_append,
    List.getElem?_cons_succ, List.getElem?_cons_zero]
  rw [hs]
  norm_num

lemma anchors64_84 : (anchorsList DataEncoder.init 64)[84]? =
    some ⟨12, 12, 32, 32⟩ := by
  have h := getElem?_anchorsList DataEncoder.init 64 0 1 1 3 (32, 32)
    (by rw [init_anchor_areas_length]; omega)
    (by rw [fmSize64.1]; omega) (by rw [fmSize64.1]; omega) init_wh_0_3
  have hoff : levelOffset DataEncoder.init 64 0 = 0 := by
    rw [levelOffset]; simp
  have hrow : (DataEncoder.init.anchor_wh.getD 0 []).length = 9 :=
    init_anchor_wh_row_length 0 (by omega)
  rw [hoff, hrow, fmSize64.1] at h
  have hidx : 0 + ((1 * 8 + 1) * 9 + 3) = 84 := by norm_num
  rw [hidx] at h
  rw [h]
  have h8 : ((64 / 8 : ℕ) : ℝ) = 8 := by norm_num
  rw [h8]
  norm_num [B4.mk.injEq]

lemma gt64 : scaledBoxes [⟨0, 0, 1/4, 2/5⟩] 64 = [⟨8, 64/5, 16, 128/5⟩] := by
  rw [scaledBoxes]
  simp only [List.map_cons, List.map_nil, xyxy2xywh]
  norm_num [B4.mk.injEq]

lemma iou84 : box_iou_xywh ⟨12, 12, 32, 32⟩ ⟨8, 64/5, 16, 128/5⟩ = 2/5 := by
  rw [box_iou_xywh, xywh2xyxy, xywh2xyxy, iouPair]
  norm_num [min_def, max_def]

lemma rows64_84 : (box_iou (anchorsList DataEncoder.init 64)
    (scaledBoxes [⟨0, 0, 1/4, 2/5⟩] 64))[84]? = some [(2 : ℝ)/5] := by
  rw [box_iou, gt64, List.getElem?_map, anchors64_84]
  simp only [Option.map_some', List.map_cons, List.map_nil]
  rw [iou84]

lemma rows64_nonempty : ∀ r ∈ box_iou (anchorsList DataEncoder.init 64)
    (scaledBoxes [⟨0, 0, 1/4, 2/5⟩] 64), r ≠ [] := by
  intro r hr hnil
  have hl := box_iou_rows _ _ r hr
  rw [length_scaledBoxes, hnil] at hl
  simp at hl

lemma mm64_some : maxDim1 (box_iou (anchorsList DataEncoder.init 64)
    (scaledBoxes [⟨0, 0, 1/4, 2/5⟩] 64)) =
    some ((maxDim1 (box_iou (anchorsList DataEncoder.init 64)
      (scaledBoxes [⟨0, 0, 1/4, 2/5⟩] 64))).getD []) :=
  option_eq_some_getD _ [] (maxDim1_isSome _ rows64_nonempty)

lemma mm64_84 : ((maxDim1 (box_iou (anchorsList DataEncoder.init 64)
    (scaledBoxes [⟨0, 0, 1/4, 2/5⟩] 64))).getD [])[84]? = some ((2 : ℝ)/5, 0) := by
  rw [maxDim1_getElem? _ _ mm64_some 84, rows64_84]
  show rowMax [(2 : ℝ)/5] = some ((2 : ℝ)/5, 0)
  exact rowMax_singleton _

lemma mm64_ids : ∀ p ∈ (maxDim1 (box_iou (anchorsList DataEncoder.init 64)
    (scaledBoxes [⟨0, 0, 1/4, 2/5⟩] 64))).getD [], p.2 < 1 := by
  have h := maxDim1_ids_lt (anchorsList DataEncoder.init 64)
    (scaledBoxes [⟨0, 0, 1/4, 2/5⟩] 64) _ mm64_some
  rw [length_scaledBoxes] at h
  simpa using h

/-! Claim theorems. -/

/-- C1, counterexample: at maximum IoU exactly 0.4 = 2/5 the code leaves the
foreground class in place: with one ground-truth box of label 7 whose IoU with
anchor 84 (input_size 64) is exactly 2/5, `cls_targets[84]` is 8 = 1 + 7,
neither 0 (the claim's background at 0.4) nor -1 (the claim's ignore range
`0.4 ≤ max_iou < 0.5`): `cls_targets[max_ious<0.4] = 0` does not fire at 0.4
and `(max_ious>0.4)&(max_ious<0.5)` does not either. -/
theorem cls_threshold_boundary_cx :
    ((maxDim1 (box_iou (anchorsList DataEncoder.init 64)
        (scaledBoxes [⟨0, 0, 1/4, 2/5⟩] 64))).getD [])[84]? = some ((2 : ℝ)/5, 0) ∧
    (encCls DataEncoder.init [⟨0, 0, 1/4, 2/5⟩] [7] 64)[84]? = some 8 ∧
    ((2 : ℝ)/5 = 0.4 ∧ (8 : ℤ) ≠ 0 ∧ (8 : ℤ) ≠ -1) := by
  refine ⟨mm64_84, ?_, by norm_num, by norm_num, by norm_num⟩
  have h := encCls_getElem? DataEncoder.init [⟨0, 0, 1/4, 2/5⟩] [7] 64 _ 84 0 (2/5)
    fmOk_init_64 mm64_some (by simpa using mm64_ids) mm64_84
  rw [h]
  norm_num

/-- C1, amended: for every anchor, writing `m` for its maximum IoU over the
ground-truth boxes and `j` for the matched index, the class target is 0
(background) when `m < 0.4`, -1 (ignore) when `0.4 < m < 0.5`, and the
foreground value `1 + label[j]` when `m ≥ 0.5`; at the boundary `m = 0.4` the
anchor keeps the foreground value (it is neither background nor ignore), and at
`m = 0.5` it keeps the foreground value. -/
theorem cls_threshold_policy (e : DataEncoder) (bs : List B4) (ls : List ℤ) (I : ℕ)
    (mm : List (ℝ × ℕ)) (i j : ℕ) (m : ℝ)
    (hfm : fmOk e I = true)
    (hmm : maxDim1 (box_iou (anchorsList e I) (scaledBoxes bs I)) = some mm)
    (hall : ∀ p ∈ mm, p.2 < ls.length)
    (hmi : mm[i]? = some (m, j)) :
    (m < 2/5 → (encCls e bs ls I)[i]? = some 0) ∧
    (2/5 < m → m < 1/2 → (encCls e bs ls I)[i]? = some (-1)) ∧
    (1/2 ≤ m → (encCls e bs ls I)[i]? = some (1 + ls.getD j 0)) ∧
    (m = 2/5 → (encCls e bs ls I)[i]? = some (1 + ls.getD j 0)) := by
  have h := encCls_getElem? e bs ls I mm i j m hfm hmm hall hmi
  have e4 : (0.4 : ℝ) = 2/5 := by norm_num
  have e5 : (0.5 : ℝ) = 1/2 := by norm_num
  rw [e4, e5] at h
  refine ⟨?_, ?_, ?_, ?_⟩
  · intro hm
    rw [h, if_neg (by intro hc; linarith [hc.1]), if_pos hm]
  · intro hm1 hm2
    rw [h, if_pos ⟨hm1, hm2⟩]
  · intro hm
    rw [h, if_neg (by intro hc; linarith [hc.2]), if_neg (by linarith)]
  · intro hm
    rw [h, if_neg (by intro hc; linarith [hc.1]), if_neg (by linarith)]

/-- Witness for `cls_threshold_policy` at the concrete instance: encoder
`DataEncoder.init`, one ground-truth box, label list `[7]`, input size 64,
anchor 84, maximum IoU exactly 2/5 at ground-truth index 0. -/
theorem cls_threshold_policy_witness :
    ((2 : ℝ)/5 < 2/5 →
      (encCls DataEncoder.init [⟨0, 0, 1/4, 2/5⟩] [7] 64)[84]? = some 0) ∧
    ((2 : ℝ)/5 < 2/5 → (2 : ℝ)/5 < 1/2 →
      (encCls DataEncoder.init [⟨0, 0, 1/4, 2/5⟩] [7] 64)[84]? = some (-1)) ∧
    ((1 : ℝ)/2 ≤ 2/5 →
      (encCls DataEncoder.init [⟨0, 0, 1/4, 2/5⟩] [7] 64)[84]? =
        some (1 + ([7] : List ℤ).getD 0 0)) ∧
    ((2 : ℝ)/5 = 2/5 →
      (encCls DataEncoder.init [⟨0, 0, 1/4, 2/5⟩] [7] 64)[84]? =
        some (1 + ([7] : List ℤ).getD 0 0)) :=
  cls_threshold_policy DataEncoder.init [⟨0, 0, 1/4, 2/5⟩] [7] 64 _ 84 0 (2/5)
    fmOk_init_64 mm64_some (by simpa using mm64_ids) mm64_84

/-- C2: for every anchor `i`, `encode` matches the ground-truth box of maximum
IoU with ties broken by the lowest ground-truth index (the matched index `j`
attains the row maximum, every row entry is at most it, and every strictly
earlier entry is strictly below it), and the regression target for the anchor
is `loc_xy = (g_xy - a_xy) / a_wh`, `loc_wh = log(g_wh / a_wh)` computed from
the matched (converted and scaled) box `g` and the anchor `a`. -/
theorem match_argmax_and_loc (e : DataEncoder) (bs : List B4) (ls : List ℤ) (I : ℕ)
    (mm : List (ℝ × ℕ)) (i j : ℕ) (m : ℝ) (row : List ℝ) (a : B4)
    (hfm : fmOk e I = true)
    (hmm : maxDim1 (box_iou (anchorsList e I) (scaledBoxes bs I)) = some mm)
    (hall : ∀ p ∈ mm, p.2 < ls.length)
    (hmi : mm[i]? = some (m, j))
    (hrow : (box_iou (anchorsList e I) (scaledBoxes bs I))[i]? = some row)
    (ha : (anchorsList e I)[i]? = some a) :
    row[j]? = some m ∧
    (∀ (k : ℕ) (v : ℝ), row[k]? = some v → v ≤ m) ∧
    (∀ k : ℕ, k < j → ∀ v : ℝ, row[k]? = some v → v < m) ∧
    (encLoc e bs ls I)[i]? =
      some (locTarget ((scaledBoxes bs I).getD j ⟨0, 0, 0, 0⟩) a) ∧
    locTarget ((scaledBoxes bs I).getD j ⟨0, 0, 0, 0⟩) a =
      ⟨(((scaledBoxes bs I).getD j ⟨0, 0, 0, 0⟩).c0 - a.c0) / a.c2,
       (((scaledBoxes bs I).getD j ⟨0, 0, 0, 0⟩).c1 - a.c1) / a.c3,
       Real.log (((scaledBoxes bs I).getD j ⟨0, 0, 0, 0⟩).c2 / a.c2),
       Real.log (((scaledBoxes bs I).getD j ⟨0, 0, 0, 0⟩).c3 / a.c3)⟩ := by
  have hb : rowMax row = some (m, j) := by
    have hh := maxDim1_getElem? _ mm hmm i
    rw [hmi, hrow] at hh
    simp only [Option.some_bind] at hh
    exact hh.symm
  obtain ⟨h1, h2, h3⟩ := rowMax_spec row m j hb
  exact ⟨h1, h2, h3,
    encLoc_getElem? e bs ls I mm i j m a hfm hmm hall hmi ha, rfl⟩

/-- Witness for `match_argmax_and_loc` at the concrete instance: anchor 84 of
input size 64, one ground-truth box, IoU row `[2/5]`, matched index 0. -/
theorem match_argmax_and_loc_witness :
    ([(2 : ℝ)/5])[0]? = some ((2 : ℝ)/5) ∧
    (∀ (k : ℕ) (v : ℝ), ([(2 : ℝ)/5])[k]? = some v → v ≤ (2 : ℝ)/5) ∧
    (∀ k : ℕ, k < 0 → ∀ v : ℝ, ([(2 : ℝ)/5])[k]? = some v → v < (2 : ℝ)/5) ∧
    (encLoc DataEncoder.init [⟨0, 0, 1/4, 2/5⟩] [7] 64)[84]? =
      some (locTarget ((scaledBoxes [⟨0, 0, 1/4, 2/5⟩] 64).getD 0 ⟨0, 0, 0, 0⟩)
        ⟨12, 12, 32, 32⟩) ∧
    locTarget ((scaledBoxes [⟨0, 0, 1/4, 2/5⟩] 64).getD 0 ⟨0, 0, 0, 0⟩) ⟨12, 12, 32, 32⟩ =
      ⟨(((scaledBoxes [⟨0, 0, 1/4, 2/5⟩] 64).getD 0 ⟨0, 0, 0, 0⟩).c0 -
          (⟨12, 12, 32, 32⟩ : B4).c0) / (⟨12, 12, 32, 32⟩ : B4).c2,
       (((scaledBoxes [⟨0, 0, 1/4, 2/5⟩] 64).getD 0 ⟨0, 0, 0, 0⟩).c1 -
          (⟨12, 12, 32, 32⟩ : B4).c1) / (⟨12, 12, 32, 32⟩ : B4).c3,
       Real.log (((scaledBoxes [⟨0, 0, 1/4, 2/5⟩] 64).getD 0 ⟨0, 0, 0, 0⟩).c2 /
          (⟨12, 12, 32, 32⟩ : B4).c2),
       Real.log (((scaledBoxes [⟨0, 0, 1/4, 2/5⟩] 64).getD 0 ⟨0, 0, 0, 0⟩).c3 /
          (⟨12, 12, 32, 32⟩ : B4).c3)⟩ :=
  match_argmax_and_loc DataEncoder.init [⟨0, 0, 1/4, 2/5⟩] [7] 64 _ 84 0 (2/5)
    [(2 : ℝ)/5] ⟨12, 12, 32, 32⟩ fmOk_init_64 mm64_some (by simpa using mm64_ids)
    mm64_84 rows64_84 anchors64_84

lemma fmSize600 : fmSize 600 0 = 75 ∧ fmSize 600 1 = 38 ∧ fmSize 600 2 = 19 ∧
    fmSize 600 3 = 9 ∧ fmSize 600 4 = 5 := by
  refine ⟨?_, ?_, ?_, ?_, ?_⟩ <;> norm_num [fmSize, Int.toNat_ofNat] <;> rfl

/-- C3: a successful `encode` with the default encoder returns `loc_targets`
and `cls_targets` of length equal to the total anchor count for `input_size`,
the sum over the five pyramid levels of `round(input_size/2^(i+3))^2 * 9`; for
`input_size = 600` that count is exactly 67824. -/
theorem encode_output_size (bs : List B4) (ls : List ℤ) (I : ℕ)
    (lt : List B4) (ct : List ℤ)
    (hE : DataEncoder.init.encode bs ls I = some (lt, ct)) :
    lt.length = anchorCount I ∧ ct.length = anchorCount I ∧ anchorCount 600 = 67824 := by
  obtain ⟨h1, h2⟩ := encode_some_lengths _ bs ls I lt ct hE
  rw [length_anchorsList_init] at h1 h2
  refine ⟨h1, h2, ?_⟩
  rw [anchorCount, show List.range 5 = [0, 1, 2, 3, 4] from by decide]
  simp only [List.map_cons, List.map_nil, List.sum_cons, List.sum_nil]
  rw [fmSize600.1, fmSize600.2.1, fmSize600.2.2.1, fmSize600.2.2.2.1, fmSize600.2.2.2.2]
  norm_num

/-- Witness for `encode_output_size` at the concrete instance: one ground-truth
box with one label at input size 64 (anchor count 774). -/
theorem encode_output_size_witness :
    DataEncoder.init.encode [⟨0, 0, 1/4, 2/5⟩] [7] 64 =
      some (encLoc DataEncoder.init [⟨0, 0, 1/4, 2/5⟩] [7] 64,
            encCls DataEncoder.init [⟨0, 0, 1/4, 2/5⟩] [7] 64) ∧
    (encLoc DataEncoder.init [⟨0, 0, 1/4, 2/5⟩] [7] 64).length = anchorCount 64 ∧
    (encCls DataEncoder.init [⟨0, 0, 1/4, 2/5⟩] [7] 64).length = anchorCount 64 ∧
    anchorCount 600 = 67824 := by
  have hs : (DataEncoder.init.encode [⟨0, 0, 1/4, 2/5⟩] [7] 64).isSome = true :=
    encode_isSome _ _ _ _ fmOk_init_64 (by simp) (by simp)
  have hE := encode_eq_some_pair _ _ _ _ hs
  have h := encode_output_size [⟨0, 0, 1/4, 2/5⟩] [7] 64 _ _ hE
  exact ⟨hE, h.1, h.2.1, h.2.2⟩

/-- C4: the anchor generator uses feature-map size
`fm = round(input_size/2^(i+3))` (the source's `int(x+0.5)` equals `round` on
nonnegative values) and stride `input_size // fm` (integer division), and the
flat output is ordered level-major, then grid row, then grid column, then
anchor slot: the entry at flat index
`levelOffset + (row*fm + col)*9 + slot` is the box centered at
`((col+0.5)*stride, (row+0.5)*stride)` carrying the slot's (width, height). -/
theorem anchor_box_layout (I : ℕ) (out : List B4) (i r c s : ℕ) (p : ℝ × ℝ)
    (hO : DataEncoder.init._get_anchor_boxes I = some out)
    (hi : i < 5) (hr : r < fmSize I i) (hc : c < fmSize I i)
    (hp : (DataEncoder.init.anchor_wh.getD i [])[s]? = some p) :
    fmSize I i = (round ((I : ℚ) / 2 ^ (i + 3))).toNat ∧
    out[levelOffset DataEncoder.init I i + ((r * fmSize I i + c) * 9 + s)]? =
      some ⟨((c : ℝ) + 0.5) * ((I / fmSize I i : ℕ) : ℝ),
            ((r : ℝ) + 0.5) * ((I / fmSize I i : ℕ) : ℝ), p.1, p.2⟩ := by
  constructor
  · rw [fmSize, round_eq]
  · have hout : out = anchorsList DataEncoder.init I := by
      by_cases hfm : fmOk DataEncoder.init I = true
      · rw [_get_anchor_boxes_eq_some _ _ hfm] at hO
        exact (Option.some.inj hO).symm
      · rw [DataEncoder._get_anchor_boxes, if_neg hfm] at hO
        exact absurd hO (by simp)
    subst hout
    have h9 := init_anchor_wh_row_length i hi
    have h := getElem?_anchorsList DataEncoder.init I i r c s p
      (by rw [init_anchor_areas_length]; omega) hr hc hp
    rw [h9] at h
    exact h

/-- Witness for `anchor_box_layout` at the concrete instance: input size 64,
level 0, grid cell (1,1), anchor slot 3, whose (width, height) entry is
(32, 32). -/
theorem anchor_box_layout_witness :
    fmSize 64 0 = (round ((64 : ℚ) / 2 ^ (0 + 3))).toNat ∧
    (anchorsList DataEncoder.init 64)[levelOffset DataEncoder.init 64 0 +
        ((1 * fmSize 64 0 + 1) * 9 + 3)]? =
      some ⟨(((1 : ℕ) : ℝ) + 0.5) * ((64 / fmSize 64 0 : ℕ) : ℝ),
            (((1 : ℕ) : ℝ) + 0.5) * ((64 / fmSize 64 0 : ℕ) : ℝ),
            (((32 : ℝ), (32 : ℝ)) : ℝ × ℝ).1, (((32 : ℝ), (32 : ℝ)) : ℝ × ℝ).2⟩ :=
  anchor_box_layout 64 (anchorsList DataEncoder.init 64) 0 1 1 3 ((32 : ℝ), (32 : ℝ))
    (_get_anchor_boxes_eq_some _ _ fmOk_init_64) (by omega)
    (by rw [fmSize64.1]; omega) (by rw [fmSize64.1]; omega) init_wh_0_3

/-- C5: in the anchor width/height table, the row for base area `s` at the slot
of aspect ratio `ar` (index `ri`) and scale ratio `sr` (index `si`) — the slot
index being `ri * |scale_ratios| + si`, aspect ratio outer, scale ratio
inner — is the pair `(w*sr, h*sr)` with `h = sqrt(s/ar)` and `w = ar*h`; the
table has one row per area, each row has `|aspect_ratios| * |scale_ratios|`
entries, and for the default configuration this is 9 entries in each of the 5
rows. -/
theorem anchor_wh_table (areas ars srs : List ℝ) (ai ri si : ℕ) (s ar sr : ℝ)
    (ha : areas[ai]? = some s) (hr : ars[ri]? = some ar) (hs : srs[si]? = some sr) :
    (DataEncoder._get_anchor_wh areas ars srs).length = areas.length ∧
    ((DataEncoder._get_anchor_wh areas ars srs).getD ai []).length =
      ars.length * srs.length ∧
    ((DataEncoder._get_anchor_wh areas ars srs).getD ai [])[ri * srs.length + si]? =
      some (ar * Real.sqrt (s / ar) * sr, Real.sqrt (s / ar) * sr) ∧
    DataEncoder.init.anchor_wh.length = 5 ∧
    (∀ row ∈ DataEncoder.init.anchor_wh, row.length = 9) := by
  have hrowD : (DataEncoder._get_anchor_wh areas ars srs).getD ai [] =
      ars.flatMap fun ar' =>
        srs.map fun sr' => (ar' * Real.sqrt (s / ar') * sr', Real.sqrt (s / ar') * sr') := by
    rw [List.getD_eq_getElem?_getD, DataEncoder._get_anchor_wh, List.getElem?_map, ha]
    rfl
  refine ⟨?_, ?_, ?_, rfl, ?_⟩
  · rw [DataEncoder._get_anchor_wh]
    simp
  · rw [hrowD, length_flatMap_uniform _ srs.length _ (fun x _ => by simp)]
  · rw [hrowD,
      getElem?_flatMap_uniform _ srs.length _ ri si ar (fun x _ => by simp) hr
        (by exact (List.getElem?_eq_some.mp hs).1),
      List.getElem?_map, hs]
    rfl
  · intro row hrow
    have hinit : DataEncoder.init.anchor_wh = DataEncoder._get_anchor_wh
        defaultAnchorAreas defaultAspectRatios defaultScaleRatios := rfl
    rw [hinit, DataEncoder._get_anchor_wh] at hrow
    obtain ⟨s', _, hrow'⟩ := List.mem_map.mp hrow
    rw [← hrow',
      length_flatMap_uniform _ defaultScaleRatios.length _ (fun x _ => by simp)]
    rfl

/-- Witness for `anchor_wh_table` at the default configuration: area index 0
(area 32*32), aspect ratio index 1 (ratio 1/1), scale ratio index 0 (ratio 1). -/
theorem anchor_wh_table_witness :
    (DataEncoder._get_anchor_wh defaultAnchorAreas defaultAspectRatios
        defaultScaleRatios).length = defaultAnchorAreas.length ∧
    ((DataEncoder._get_anchor_wh defaultAnchorAreas defaultAspectRatios
        defaultScaleRatios).getD 0 []).length =
      defaultAspectRatios.length * defaultScaleRatios.length ∧
    ((DataEncoder._get_anchor_wh defaultAnchorAreas defaultAspectRatios
        defaultScaleRatios).getD 0 [])[1 * defaultScaleRatios.length + 0]? =
      some ((1/1 : ℝ) * Real.sqrt (32*32 / (1/1)) * 1, Real.sqrt ((32*32 : ℝ) / (1/1)) * 1) ∧
    DataEncoder.init.anchor_wh.length = 5 ∧
    (∀ row ∈ DataEncoder.init.anchor_wh, row.length = 9) :=
  anchor_wh_table defaultAnchorAreas defaultAspectRatios defaultScaleRatios 0 1 0
    (32*32) (1/1) 1 rfl rfl rfl

/-- C6: in exact arithmetic the decoder formulas invert the encoder: for any
anchor `a` with positive width and height matched to a scaled ground-truth box
`g` with positive width and height, the produced `loc_target` `t` satisfies
`t_xy * a_wh + a_xy = g_xy` and `exp(t_wh) * a_wh = g_wh`. -/
theorem encode_decode_roundtrip (e : DataEncoder) (bs : List B4) (ls : List ℤ) (I : ℕ)
    (mm : List (ℝ × ℕ)) (i j : ℕ) (m : ℝ) (a g t : B4)
    (hfm : fmOk e I = true)
    (hmm : maxDim1 (box_iou (anchorsList e I) (scaledBoxes bs I)) = some mm)
    (hall : ∀ p ∈ mm, p.2 < ls.length)
    (hmi : mm[i]? = some (m, j))
    (ha : (anchorsList e I)[i]? = some a)
    (hg : g = (scaledBoxes bs I).getD j ⟨0, 0, 0, 0⟩)
    (ht : (encLoc e bs ls I)[i]? = some t)
    (haw : 0 < a.c2) (hah : 0 < a.c3) (hgw : 0 < g.c2) (hgh : 0 < g.c3) :
    t.c0 * a.c2 + a.c0 = g.c0 ∧ t.c1 * a.c3 + a.c1 = g.c1 ∧
    Real.exp t.c2 * a.c2 = g.c2 ∧ Real.exp t.c3 * a.c3 = g.c3 := by
  have hT := encLoc_getElem? e bs ls I mm i j m a hfm hmm hall hmi ha
  rw [ht] at hT
  have ht' : t = locTarget g a := by
    rw [hg]
    exact Option.some.inj hT
  subst ht'
  simp only [locTarget]
  refine ⟨?_, ?_, ?_, ?_⟩
  · rw [div_mul_cancel₀ _ (ne_of_gt haw)]; ring
  · rw [div_mul_cancel₀ _ (ne_of_gt hah)]; ring
  · rw [Real.exp_log (div_pos hgw haw), div_mul_cancel₀ _ (ne_of_gt haw)]
  · rw [Real.exp_log (div_pos hgh hah), div_mul_cancel₀ _ (ne_of_gt hah)]

/-- Witness for `encode_decode_roundtrip` at the concrete instance: anchor 84
(the box (12,12,32,32)) matched to the scaled ground-truth box
(8, 64/5, 16, 128/5). -/
theorem encode_decode_roundtrip_witness :
    (locTarget ⟨8, 64/5, 16, 128/5⟩ ⟨12, 12, 32, 32⟩).c0 * (⟨12, 12, 32, 32⟩ : B4).c2 +
        (⟨12, 12, 32, 32⟩ : B4).c0 = (⟨8, 64/5, 16, 128/5⟩ : B4).c0 ∧
    (locTarget ⟨8, 64/5, 16, 128/5⟩ ⟨12, 12, 32, 32⟩).c1 * (⟨12, 12, 32, 32⟩ : B4).c3 +
        (⟨12, 12, 32, 32⟩ : B4).c1 = (⟨8, 64/5, 16, 128/5⟩ : B4).c1 ∧
    Real.exp (locTarget ⟨8, 64/5, 16, 128/5⟩ ⟨12, 12, 32, 32⟩).c2 *
        (⟨12, 12, 32, 32⟩ : B4).c2 = (⟨8, 64/5, 16, 128/5⟩ : B4).c2 ∧
    Real.exp (locTarget ⟨8, 64/5, 16, 128/5⟩ ⟨12, 12, 32, 32⟩).c3 *
        (⟨12, 12, 32, 32⟩ : B4).c3 = (⟨8, 64/5, 16, 128/5⟩ : B4).c3 := by
  have hg : (⟨8, 64/5, 16, 128/5⟩ : B4) =
      (scaledBoxes [⟨0, 0, 1/4, 2/5⟩] 64).getD 0 ⟨0, 0, 0, 0⟩ := by
    rw [gt64]
    rfl
  have ht : (encLoc DataEncoder.init [⟨0, 0, 1/4, 2/5⟩] [7] 64)[84]? =
      some (locTarget ⟨8, 64/5, 16, 128/5⟩ ⟨12, 12, 32, 32⟩) := by
    have h := encLoc_getElem? DataEncoder.init [⟨0, 0, 1/4, 2/5⟩] [7] 64 _ 84 0 (2/5)
      ⟨12, 12, 32, 32⟩ fmOk_init_64 mm64_some (by simpa using mm64_ids) mm64_84
      anchors64_84
    rw [← hg] at h
    exact h
  exact encode_decode_roundtrip DataEncoder.init [⟨0, 0, 1/4, 2/5⟩] [7] 64 _ 84 0 (2/5)
    ⟨12, 12, 32, 32⟩ ⟨8, 64/5, 16, 128/5⟩ (locTarget ⟨8, 64/5, 16, 128/5⟩ ⟨12, 12, 32, 32⟩)
    fmOk_init_64 mm64_some (by simpa using mm64_ids) mm64_84 anchors64_84 hg ht
    (by norm_num) (by norm_num) (by norm_num) (by norm_num)

/-- C7, counterexample: `encode` performs no input validation: with one
ground-truth box but two labels (mismatched lengths) it succeeds, and with a
degenerate box of height 0 after conversion (ymax = ymin = 0) it also
succeeds, instead of failing with an InvalidInput condition. -/
theorem encode_no_validation_cx :
    (DataEncoder.init.encode [⟨0, 0, 1/4, 2/5⟩] [7, 9] 64).isSome = true ∧
    (DataEncoder.init.encode [⟨0, 0, 1/4, 0⟩] [3] 64).isSome = true ∧
    ([⟨0, 0, 1/4, 2/5⟩] : List B4).length ≠ ([7, 9] : List ℤ).length ∧
    (⟨0, 0, 1/4, 0⟩ : B4).c3 - (⟨0, 0, 1/4, 0⟩ : B4).c1 ≤ 0 := by
  refine ⟨?_, ?_, by simp, by norm_num⟩
  · exact encode_isSome _ _ _ _ fmOk_init_64 (by simp) (by simp)
  · exact encode_isSome _ _ _ _ fmOk_init_64 (by simp) (by simp)

/-- C7, amended: `encode` does not validate its inputs: it returns a result
whenever every pyramid level has a nonzero feature-map size, there is at least
one ground-truth box, and the labels list is at least as long as the boxes
list — in particular also when the two lists have different lengths (extra
labels are ignored) and when a box has non-positive width or height after
conversion; the only failures are the ones of the underlying operations
(zero feature-map size, empty ground truth, label index out of range), not a
dedicated InvalidInput check. -/
theorem encode_no_validation (e : DataEncoder) (bs : List B4) (ls : List ℤ) (I : ℕ)
    (hfm : fmOk e I = true) (hbs : bs ≠ []) (hlen : bs.length ≤ ls.length) :
    (e.encode bs ls I).isSome = true :=
  encode_isSome e bs ls I hfm hbs hlen

/-- Witness for `encode_no_validation`: the mismatched-length call with one
box and two labels at input size 64. -/
theorem encode_no_validation_witness :
    (DataEncoder.init.encode [⟨0, 0, 1/4, 2/5⟩] [7, 9] 64).isSome = true :=
  encode_no_validation DataEncoder.init [⟨0, 0, 1/4, 2/5⟩] [7, 9] 64
    fmOk_init_64 (by simp) (by simp)

lemma anchorsList_init_ne_nil (I : ℕ) (hfm : fmOk DataEncoder.init I = true) :
    anchorsList DataEncoder.init I ≠ [] := by
  intro hnil
  have hlen := length_anchorsList_init I
  rw [hnil] at hlen
  simp only [List.length_nil] at hlen
  have h0 : fmSize I 0 ≠ 0 := by
    rw [fmOk] at hfm
    have := List.all_eq_true.mp hfm 0
      (by rw [init_anchor_areas_length]; exact List.mem_range.mpr (by omega))
    exact of_decide_eq_true this
  have hpos : anchorCount I ≠ 0 := by
    rw [anchorCount, show List.range 5 = [0, 1, 2, 3, 4] from by decide]
    simp only [List.map_cons, List.map_nil, List.sum_cons, List.sum_nil]
    have h1 : fmSize I 0 ^ 2 * 9 ≠ 0 := Nat.mul_ne_zero (pow_ne_zero 2 h0) (by omega)
    omega
  omega

/-- C8: with an empty ground-truth list, `encode` never returns a result: when
the anchor generation fails the call already fails, and otherwise the IoU
matrix has one empty row per anchor, so the model of `ious.max(1)` — which,
like torch, has no value on an empty reduction axis — fails; in particular no
all-background output is produced. -/
theorem encode_empty_gt_fails (ls : List ℤ) (I : ℕ) :
    DataEncoder.init.encode [] ls I = none := by
  by_cases hfm : fmOk DataEncoder.init I = true
  · have hne := anchorsList_init_ne_nil I hfm
    obtain ⟨x, xs, hx⟩ := List.exists_cons_of_ne_nil hne
    have hnone : maxDim1 (box_iou (anchorsList DataEncoder.init I)
        (scaledBoxes [] I)) = none := by
      have hsb : scaledBoxes [] I = ([] : List B4) := rfl
      rw [hsb, box_iou, hx]
      simp [maxDim1, rowMax]
    simp [DataEncoder.encode, _get_anchor_boxes_eq_some _ _ hfm, hnone]
  · simp [DataEncoder.encode, DataEncoder._get_anchor_boxes, if_neg hfm]

/-- C9: the encoder state is never mutated: the state-passing forms of
`encode` and `_get_anchor_boxes` return the receiver unchanged (the source
methods contain no attribute assignment), and the anchor width/height table of
the constructed encoder is exactly the one computed by `_get_anchor_wh` from
the configuration at construction time. -/
theorem encoder_state_immutable (e : DataEncoder) (bs : List B4) (ls : List ℤ)
    (I J : ℕ) :
    (e.encodeSt bs ls I).1 = e ∧ (e.getAnchorBoxesSt J).1 = e ∧
    DataEncoder.init.anchor_wh = DataEncoder._get_anchor_wh defaultAnchorAreas
      defaultAspectRatios defaultScaleRatios :=
  ⟨rfl, rfl, rfl⟩

/-- C10: the anchor generator is deterministic: two encoders with identical
configuration (equal areas, aspect ratios and scale ratios, each carrying the
table computed from its own configuration) produce identical anchor box lists
for every input size — same length, same order, same values. -/
theorem anchor_generator_deterministic (e1 e2 : DataEncoder) (I : ℕ)
    (h1 : e1.anchor_areas = e2.anchor_areas)
    (h2 : e1.aspect_ratios = e2.aspect_ratios)
    (h3 : e1.scale_ratios = e2.scale_ratios)
    (hw1 : e1.anchor_wh =
      DataEncoder._get_anchor_wh e1.anchor_areas e1.aspect_ratios e1.scale_ratios)
    (hw2 : e2.anchor_wh =
      DataEncoder._get_anchor_wh e2.anchor_areas e2.aspect_ratios e2.scale_ratios) :
    e1._get_anchor_boxes I = e2._get_anchor_boxes I := by
  obtain ⟨a1, r1, s1, w1⟩ := e1
  obtain ⟨a2, r2, s2, w2⟩ := e2
  simp only at h1 h2 h3 hw1 hw2
  subst h1
  subst h2
  subst h3
  subst hw1
  subst hw2
  rfl

/-- Witness for `anchor_generator_deterministic`: two copies of the default
encoder at input size 64. -/
theorem anchor_generator_deterministic_witness :
    DataEncoder.init._get_anchor_boxes 64 = DataEncoder.init._get_anchor_boxes 64 :=
  anchor_generator_deterministic DataEncoder.init DataEncoder.init 64
    rfl rfl rfl rfl rfl
